import Mathlib

set_option maxRecDepth 4000

/-!
Verification of the Candidate_review repository (frontend `src/frontend/src/App.tsx`
plus the backend components specified in spec.md) against its natural-language
specification.  JavaScript strings are embedded as `List Char`; the SSE stream
consumer, message log and task navigation are translated from `App.tsx`;
backend components absent from the source tree (Score Validator, Session
Orchestrator, tool-call loop, Retrieval Index) are modelled from the spec.
-/

/-- JavaScript strings are embedded as lists of characters. -/
abbrev Str := List Char

/-- Whitespace characters removed by JavaScript `String.prototype.trim`
(restricted to the ASCII whitespace actually occurring in the SSE protocol). -/
def isWS (c : Char) : Bool := c = ' ' || c = '\n' || c = '\t' || c = '\r'

/-- Embedding of JavaScript `s.trim()`: drop whitespace from both ends. -/
def trimStr (s : Str) : Str := ((s.dropWhile isWS).reverse.dropWhile isWS).reverse

/-- Embedding of JavaScript `buffer.split("\n\n")` (App.tsx line 289):
leftmost, non-overlapping splitting on the two-character blank-line
delimiter.  Always returns at least one segment, like the JS original. -/
def split2NL : Str → List Str
  | '\n' :: '\n' :: rest => [] :: split2NL rest
  | c :: rest =>
    match split2NL rest with
    | s :: ss => (c :: s) :: ss
    | [] => [[c]]
  | [] => [[]]

/-- Message sender, from the `Message` type of App.tsx (lines 39-44). -/
inductive Sender
  | candidate
  | model
  | system
deriving DecidableEq, Repr

/-- A chat message, from the `Message` type of App.tsx (lines 39-44).
The server-assigned timestamp plays no role in the verified claims. -/
structure Message where
  sender : Sender
  text : Str
  task_id : Option Str := none
deriving DecidableEq, Repr

/-- Embedding of `pushMessage` (App.tsx line 272):
`setMessages((prev) => [...prev, msg])`. -/
def pushMessage (prev : List Message) (msg : Message) : List Message := prev ++ [msg]

/-- The payload of one parsed `data: <json>` server-sent event, as the fields
accessed by `streamModel` (App.tsx lines 296-307): `type`, `content`, `detail`.
A field absent from the JSON is embedded as the empty string, matching its
falsiness in the JavaScript conditions. -/
structure SSEData where
  type_ : Str
  content : Str := []
  detail : Str := []
deriving DecidableEq, Repr

/-- The event-type literal `"token"`. -/
def tokenT : Str := "token".toList

/-- The event-type literal `"error"`. -/
def errorT : Str := "error".toList

/-- The event-type literal `"done"`. -/
def doneT : Str := "done".toList

/-- The message text produced for a server-sent error event
(App.tsx line 301). -/
def modelErrT : Str := "Ошибка модели: ".toList

/-- The message text produced when the stream read itself fails
(App.tsx line 312). -/
def streamFailT : Str := "Стрим не удался: ".toList

/-- The mutable state of one `streamModel` invocation (App.tsx lines 274-320):
the local `accumulated` string, the `streamingReply` and `messages` React
state, and the `streaming` flag. -/
structure MState where
  accumulated : Str
  streamingReply : Str
  messages : List Message
  streaming : Bool
deriving DecidableEq, Repr

/-- Effect of one parsed event on the stream state, embedding the three
`if (data.type === ...)` blocks of App.tsx lines 296-308. -/
def processEvent (st : MState) (data : SSEData) : MState :=
  let st1 :=
    if data.type_ = tokenT then
      { st with accumulated := st.accumulated ++ data.content,
                streamingReply := st.streamingReply ++ data.content }
    else st
  let st2 :=
    if data.type_ = errorT then
      let detailTxt := if data.detail ≠ [] then data.detail else data.content
      let errMsg : Message := ⟨Sender.system, modelErrT ++ detailTxt, none⟩
      { st1 with messages := pushMessage st1.messages errMsg }
    else st1
  if data.type_ = doneT then
    if data.content ≠ [] then
      { st2 with accumulated := data.content, streamingReply := data.content }
    else st2
  else st2

/-- Effect of one reassembled frame on the stream state, embedding the body of
the `for (const part of parts)` loop (App.tsx lines 291-309): skip frames not
starting with `data:` after trimming, strip the 5-character `data:` tag, skip
empty payloads, and process the parsed event.  `parse` stands for the
JavaScript `JSON.parse` builtin. -/
def processPart (parse : Str → SSEData) (st : MState) (part : Str) : MState :=
  let t := trimStr part
  if ("data:".toList).isPrefixOf t then
    let raw := trimStr (t.drop 5)
    if raw = [] then st else processEvent st (parse raw)
  else st

/-- Effect of one received chunk on (state, buffer), embedding the body of the
`while (true)` read loop (App.tsx lines 285-310): append the chunk to the
buffer, split on the blank-line delimiter, keep the trailing segment as the new
buffer, and process each complete frame in order. -/
def stepChunk (parse : Str → SSEData) (s : MState × Str) (chunk : Str) : MState × Str :=
  let buffer := s.2 ++ chunk
  let parts := split2NL buffer
  (parts.dropLast.foldl (processPart parse) s.1, parts.getLastD [])

/-- The whole read loop of `streamModel` over a list of received chunks,
starting from an empty buffer (App.tsx lines 284-310). -/
def runChunks (parse : Str → SSEData) (st : MState) (chunks : List Str) : MState × Str :=
  chunks.foldl (stepChunk parse) (st, [])

/-- The state at the start of a `streamModel` call (App.tsx lines 276-278):
`setStreaming(true); setStreamingReply(""); let accumulated = ""`. -/
def initSt (msgs : List Message) : MState :=
  { accumulated := [], streamingReply := [], messages := msgs, streaming := true }

/-- Processing a list of already-parsed events in order. -/
def runEvents (st : MState) (es : List SSEData) : MState := es.foldl processEvent st

/-- The system message pushed when the stream read throws
(App.tsx line 312). -/
def streamFailMsg (errMsg : Str) : Message :=
  ⟨Sender.system, streamFailT ++ errMsg, none⟩

/-- The `finally` block of `streamModel` (App.tsx lines 313-319):
clear the streaming flag and, when `accumulated` is non-empty, push it as the
model's message and clear the streaming reply. -/
def finalizeStream (st : MState) : MState :=
  let st1 : MState := { st with streaming := false }
  if st1.accumulated ≠ [] then
    { st1 with messages := pushMessage st1.messages (⟨Sender.model, st1.accumulated, none⟩ : Message),
               streamingReply := [] }
  else st1

/-- One whole `streamModel` turn at event granularity: process the events that
arrived, then the `catch` block when the read failed (`fail = some errMsg`),
then the `finally` block (App.tsx lines 274-320). -/
def streamTurnEvents (initMsgs : List Message) (es : List SSEData) (fail : Option Str) :
    MState :=
  let st1 := runEvents (initSt initMsgs) es
  finalizeStream
    (match fail with
     | some e => { st1 with messages := pushMessage st1.messages (streamFailMsg e) }
     | none => st1)

/-- A token event `data: {type:"token", content}` as parsed by the consumer. -/
def mkToken (content : Str) : SSEData := ⟨tokenT, content, []⟩

/-- A done event `data: {type:"done", content}` as parsed by the consumer. -/
def mkDone (content : Str) : SSEData := ⟨doneT, content, []⟩

/-- A task of a scenario, from the `Task` type of App.tsx (lines 9-20),
restricted to the fields the verified claims touch (named `UITask` here to
avoid the homonymous Lean core type). -/
structure UITask where
  id : Str
  type_ : Str
  title : Str
  max_points : Option Int := none
deriving DecidableEq, Repr

/-- Embedding of `goNextTask` (App.tsx lines 445-449): advance the current
task index when it is below `orderedTasks.length - 1` (JavaScript number
arithmetic, hence the index and bound live in `Int`). -/
def goNextTask (len : Nat) (idx : Int) : Int :=
  if idx < (len : Int) - 1 then idx + 1 else idx

/-- Embedding of `goPrevTask` (App.tsx lines 451-455): decrement the current
task index when it is positive. -/
def goPrevTask (idx : Int) : Int :=
  if 0 < idx then idx - 1 else idx

/-- Embedding of `currentTask` (App.tsx line 130):
`orderedTasks[currentTaskIndex] || null` — an out-of-range or negative index
yields `undefined`, hence `null`. -/
def currentTask (tasks : List UITask) (idx : Int) : Option UITask :=
  if h : 0 ≤ idx ∧ idx.toNat < tasks.length then some (tasks.get ⟨idx.toNat, h.2⟩)
  else none

/-- The two task-navigation operations of the session view. -/
inductive TaskNav
  | next
  | prev
deriving DecidableEq, Repr

/-- Apply one navigation operation to the current task index. -/
def applyNav (len : Nat) (idx : Int) : TaskNav → Int
  | TaskNav.next => goNextTask len idx
  | TaskNav.prev => goPrevTask idx

/-- The task index reached from the initial index `0` (App.tsx line 345)
after a sequence of navigation clicks. -/
def runNav (len : Nat) (navs : List TaskNav) : Int :=
  navs.foldl (applyNav len) 0

/-- Error raised by the Score Validator. -/
inductive ScoreError
  | invalidScore
deriving DecidableEq, Repr

/-- A task as seen by the backend scoring path: identifier and scoring limit. -/
structure ScoredTask where
  id : Str
  max_points : Int
deriving DecidableEq, Repr

/-- Modelled from the spec: the Score Validator (spec §4.4) of the backend,
which is not under `src/`.  Given `(task, proposedPoints)` it fails with
`InvalidScore` when `proposedPoints < 0` or `proposedPoints > task.max_points`
and otherwise returns the accepted point value unchanged (no clamping). -/
def validateScore (task : ScoredTask) (proposedPoints : Int) : Except ScoreError Int :=
  if proposedPoints < 0 ∨ proposedPoints > task.max_points then
    Except.error ScoreError.invalidScore
  else Except.ok proposedPoints

/-- A recorded score (spec §3): task identifier, awarded points, and the max
points copied from the task definition at scoring time. -/
structure Score where
  task_id : Str
  awarded : Int
  max_points : Int
deriving DecidableEq, Repr

/-- Modelled from the spec: `recordScore` (spec §4.1) of the backend Session
Orchestrator, which is not under `src/`.  It delegates to the Score Validator
and appends the accepted score to the score list. -/
def recordScore (scores : List Score) (task : ScoredTask) (pts : Int) :
    Except ScoreError (List Score) :=
  (validateScore task pts).map (fun v => scores ++ [⟨task.id, v, task.max_points⟩])

/-- Session lifecycle states (spec §4.1). -/
inductive SessionState
  | created
  | active
  | awaitingModel
  | completed
deriving DecidableEq, Repr

/-- Error raised by orchestrator operations invoked in an invalid state. -/
inductive OrchError
  | invalidState
deriving DecidableEq, Repr

/-- A session as seen by the orchestrator's turn state machine. -/
structure SessionM where
  lifecycle : SessionState
deriving DecidableEq, Repr

/-- Modelled from the spec: `requestModelTurn` (spec §4.1) of the backend
Session Orchestrator, which is not under `src/`.  It fails with
`InvalidState` if the session is already `awaiting_model` and otherwise
transitions the session to `awaiting_model`; the frontend mirrors this with
its `streaming` flag and the disabled send button (App.tsx lines 276, 590). -/
def requestModelTurn (s : SessionM) : Except OrchError SessionM :=
  if s.lifecycle = SessionState.awaitingModel then Except.error OrchError.invalidState
  else Except.ok { s with lifecycle := SessionState.awaitingModel }

/-- Modelled from the spec: the transition taken when the model stream
terminates with `done` or `error` (spec §4.1): back to `active`. -/
def onStreamTermination (s : SessionM) : SessionM :=
  { s with lifecycle := SessionState.active }

/-- One model completion result: a plain terminal answer or an embedded
tool call (spec §9, result type of the extraction routine). -/
inductive ModelReply
  | plain (text : Str)
  | toolCall (name : Str) (args : Str)

/-- Outcome of one model turn: a terminal answer or an error event. -/
inductive TurnOutcome
  | done (text : Str)
  | errorEvent
deriving DecidableEq, Repr

/-- Modelled from the spec: the chained tool-call loop of the backend
Streaming Consumer (spec §4.2), which is not under `src/`.  Each completion
either answers plainly (ending the turn) or requests a tool; the tool result
is appended to the dialogue and a new completion is issued, with the chain
capped at `cap` tool calls; exceeding the cap surfaces an error event.
Returns the number of chained tool calls taken together with the outcome. -/
def runToolLoop (model : List Str → ModelReply) (dispatch : Str → Str → Str)
    (cap : Nat) (dia : List Str) : Nat × TurnOutcome :=
  match model dia with
  | ModelReply.plain t => (0, TurnOutcome.done t)
  | ModelReply.toolCall name args =>
    match cap with
    | 0 => (0, TurnOutcome.errorEvent)
    | c + 1 =>
      let r := runToolLoop model dispatch c (dia ++ [dispatch name args])
      (r.1 + 1, r.2)

/-- Modelled from the spec: tokenization of the backend Retrieval Index
(spec §4.5), which is not under `src/`: a document is reduced to its
normalized (lower-cased) whitespace-separated tokens. -/
def tokenize (s : Str) : List Str :=
  ((s.map Char.toLower).splitOnP isWS).filter (fun t => t ≠ [])

/-- Modelled from the spec: dot product of the token-frequency vectors of two
token lists (spec §4.5).  Tokens outside `d1` contribute zero, so summing over
the distinct tokens of `d1` suffices. -/
def dotTF (d1 d2 : List Str) : Nat :=
  (d1.dedup.map (fun t => d1.count t * d2.count t)).sum

/-- Squared Euclidean norm of a token-frequency vector. -/
def normSqTF (d : List Str) : Nat := dotTF d d

/-- Modelled from the spec: squared cosine similarity between the
token-frequency vectors of a query and a document (spec §4.5), as an exact
rational.  For the nonnegative frequency vectors involved, cosine similarity
is the (nonnegative) square root of this value, so equality with `1` and the
descending result order are the same for both; a zero vector gets
similarity `0`. -/
def simSq (q d : Str) : ℚ :=
  if normSqTF (tokenize q) = 0 ∨ normSqTF (tokenize d) = 0 then 0
  else ((dotTF (tokenize q) (tokenize d) : ℚ)) ^ 2 /
    ((normSqTF (tokenize q) : ℚ) * (normSqTF (tokenize d) : ℚ))

/-- Result ranking order of the Retrieval Index (spec §4.5): descending
similarity, ties broken by insertion order (earliest-added first). -/
def rankLE (a b : Nat × ℚ) : Prop :=
  b.2 < a.2 ∨ (a.2 = b.2 ∧ a.1 ≤ b.1)

instance : DecidableRel rankLE := fun a b =>
  inferInstanceAs (Decidable (b.2 < a.2 ∨ (a.2 = b.2 ∧ a.1 ≤ b.1)))

instance : IsTotal (Nat × ℚ) rankLE :=
  ⟨fun a b => by
    rcases lt_trichotomy a.2 b.2 with h | h | h
    · exact Or.inr (Or.inl h)
    · rcases Nat.le_total a.1 b.1 with h1 | h1
      · exact Or.inl (Or.inr ⟨h, h1⟩)
      · exact Or.inr (Or.inr ⟨h.symm, h1⟩)
    · exact Or.inl (Or.inl h)⟩

instance : IsTrans (Nat × ℚ) rankLE :=
  ⟨fun a b c hab hbc => by
    rcases hab with h1 | ⟨h1, h1'⟩ <;> rcases hbc with h2 | ⟨h2, h2'⟩
    · exact Or.inl (h2.trans h1)
    · exact Or.inl (h2 ▸ h1)
    · exact Or.inl (h1 ▸ h2)
    · exact Or.inr ⟨h1.trans h2, h1'.trans h2'⟩⟩

/-- Modelled from the spec: the search operation of the backend Retrieval
Index (spec §4.5), which is not under `src/`: score every document of the
corpus against the query, order by descending similarity with ties broken by
insertion order, and return the top `k` as `(document index, squared cosine
similarity)` pairs.  An empty corpus yields an empty result, not an error. -/
def ragSearch (corpus : List Str) (q : Str) (k : Nat) : List (Nat × ℚ) :=
  ((corpus.enum.map (fun p => (p.1, simSq q p.2))).insertionSort rankLE).take k

/-- Every fold of `pushMessage` just appends the pushed messages in order. -/
theorem foldl_pushMessage (start l : List Message) :
    l.foldl pushMessage start = start ++ l := by
  induction l generalizing start with
  | nil => simp
  | cons m l ih => simp [pushMessage, ih]

/-- C1: the Score Validator fails with `InvalidScore` exactly when the
proposed points are negative or exceed the task's `max_points`; otherwise it
returns the proposed value unchanged (no clamping); in particular it accepts
`max_points`, rejects `max_points + 1`, and every recorded Score satisfies
`0 ≤ awarded ≤ max_points`. -/
theorem scoreValidator_range (t : ScoredTask) (p : Int) (scores : List Score) :
    (validateScore t p = Except.error ScoreError.invalidScore ↔ (p < 0 ∨ p > t.max_points))
    ∧ (0 ≤ p → p ≤ t.max_points → validateScore t p = Except.ok p)
    ∧ (0 ≤ t.max_points → validateScore t t.max_points = Except.ok t.max_points)
    ∧ validateScore t (t.max_points + 1) = Except.error ScoreError.invalidScore
    ∧ (∀ res, recordScore scores t p = Except.ok res →
        res = scores ++ [⟨t.id, p, t.max_points⟩] ∧ 0 ≤ p ∧ p ≤ t.max_points) := by
  refine ⟨?_, ?_, ?_, ?_, ?_⟩
  · unfold validateScore
    split <;> simp_all
  · intro h1 h2
    unfold validateScore
    split <;> [omega; rfl]
  · intro h
    unfold validateScore
    split <;> [omega; rfl]
  · unfold validateScore
    split <;> [rfl; omega]
  · intro res h
    unfold recordScore validateScore at h
    split at h
    · simp [Except.map] at h
    · simp [Except.map] at h
      exact ⟨h.symm, by omega⟩

/-- C1 witness: a task with `max_points = 10` accepts 10 and records it. -/
theorem scoreValidator_range_witness :
    ((0:Int) ≤ 10 ∧ (10:Int) ≤ 10)
    ∧ validateScore ⟨['t'], 10⟩ 10 = Except.ok 10
    ∧ (recordScore [] ⟨['t'], 10⟩ 10 = Except.ok [⟨['t'], 10, 10⟩] →
        [(⟨['t'], 10, 10⟩ : Score)] = [] ++ [⟨['t'], 10, 10⟩] ∧ (0:Int) ≤ 10 ∧ (10:Int) ≤ 10) :=
  ⟨by decide,
   (scoreValidator_range ⟨['t'], 10⟩ 10 []).2.1 (by decide) (by decide),
   fun h => (scoreValidator_range ⟨['t'], 10⟩ 10 []).2.2.2.2 _ h⟩

/-- C5: within a session the message list is mutated only through
`pushMessage`; under any sequence of pushes it is append-only: each push
appends exactly one element at the end, the list at any earlier time is a
prefix of the list at any later time, and the length is non-decreasing. -/
theorem messages_append_only (start ops : List Message) (n m : Nat) (h : n ≤ m) :
    ((ops.take n).foldl pushMessage start) <+: ((ops.take m).foldl pushMessage start)
    ∧ ((ops.take n).foldl pushMessage start).length ≤
        ((ops.take m).foldl pushMessage start).length
    ∧ (∀ msgs msg, pushMessage msgs msg = msgs ++ [msg])
    ∧ ops.foldl pushMessage start = start ++ ops := by
  have hpre : (ops.take n) <+: (ops.take m) := by
    refine ⟨(ops.drop n).take (m - n), ?_⟩
    rw [← List.take_add]
    congr 1
    omega
  obtain ⟨t, ht⟩ := hpre
  have hp : ((ops.take n).foldl pushMessage start) <+: ((ops.take m).foldl pushMessage start) := by
    rw [foldl_pushMessage, foldl_pushMessage]
    exact ⟨t, by rw [List.append_assoc, ht]⟩
  exact ⟨hp, hp.length_le, fun msgs msg => rfl, foldl_pushMessage start ops⟩

/-- The concrete push sequence used by the C5 witness. -/
def witnessOps : List Message :=
  [⟨Sender.candidate, ['a'], none⟩, ⟨Sender.model, ['b'], none⟩, ⟨Sender.system, ['c'], none⟩]

/-- C5 witness: three pushes after an empty log, comparing times 1 and 2. -/
theorem messages_append_only_witness :
    (1 ≤ 2)
    ∧ ((witnessOps.take 1).foldl pushMessage [] <+: (witnessOps.take 2).foldl pushMessage [])
    ∧ ((witnessOps.take 1).foldl pushMessage []).length ≤
        ((witnessOps.take 2).foldl pushMessage []).length
    ∧ (∀ msgs msg, pushMessage msgs msg = msgs ++ [msg])
    ∧ witnessOps.foldl pushMessage [] = [] ++ witnessOps :=
  ⟨by decide, (messages_append_only [] witnessOps 1 2 (by decide)).1,
   (messages_append_only [] witnessOps 1 2 (by decide)).2.1,
   (messages_append_only [] witnessOps 1 2 (by decide)).2.2.1,
   (messages_append_only [] witnessOps 1 2 (by decide)).2.2.2⟩

/-- C6: at most one model-turn stream per session: `requestModelTurn` fails
with `InvalidState` when the session is already `awaiting_model`, transitions
to `awaiting_model` on start — so a second concurrent call fails — and the
stream-termination transition returns the session to `active`. -/
theorem requestModelTurn_mutex (s : SessionM) :
    (s.lifecycle = SessionState.awaitingModel →
      requestModelTurn s = Except.error OrchError.invalidState)
    ∧ (∀ s1, requestModelTurn s = Except.ok s1 →
        s1.lifecycle = SessionState.awaitingModel
        ∧ requestModelTurn s1 = Except.error OrchError.invalidState
        ∧ (onStreamTermination s1).lifecycle = SessionState.active) := by
  constructor
  · intro h
    simp [requestModelTurn, h]
  · intro s1 h
    unfold requestModelTurn at h
    split at h
    · cases h
    · have hs1 : s1.lifecycle = SessionState.awaitingModel := by
        cases h
        rfl
      exact ⟨hs1, by simp [requestModelTurn, hs1], rfl⟩

/-- C6 witness: starting a turn on an `active` session succeeds and a second
concurrent call on the resulting session fails with `InvalidState`. -/
theorem requestModelTurn_mutex_witness :
    requestModelTurn ⟨SessionState.active⟩ = Except.ok ⟨SessionState.awaitingModel⟩
    ∧ requestModelTurn ⟨SessionState.awaitingModel⟩ = Except.error OrchError.invalidState :=
  ⟨by rfl,
   ((requestModelTurn_mutex ⟨SessionState.active⟩).2 ⟨SessionState.awaitingModel⟩
      (by rfl)).2.1⟩

/-- Unfolding of `runToolLoop` at a plain model answer. -/
theorem runToolLoop_plain (model : List Str → ModelReply) (dispatch : Str → Str → Str)
    (cap : Nat) (dia : List Str) (t : Str) (h : model dia = ModelReply.plain t) :
    runToolLoop model dispatch cap dia = (0, TurnOutcome.done t) := by
  rw [runToolLoop, h]

/-- Unfolding of `runToolLoop` at a tool call with exhausted cap. -/
theorem runToolLoop_tool_zero (model : List Str → ModelReply) (dispatch : Str → Str → Str)
    (dia : List Str) (n a : Str) (h : model dia = ModelReply.toolCall n a) :
    runToolLoop model dispatch 0 dia = (0, TurnOutcome.errorEvent) := by
  rw [runToolLoop, h]

/-- Unfolding of `runToolLoop` at a tool call with remaining cap. -/
theorem runToolLoop_tool_succ (model : List Str → ModelReply) (dispatch : Str → Str → Str)
    (c : Nat) (dia : List Str) (n a : Str) (h : model dia = ModelReply.toolCall n a) :
    runToolLoop model dispatch (c + 1) dia =
      ((runToolLoop model dispatch c (dia ++ [dispatch n a])).1 + 1,
       (runToolLoop model dispatch c (dia ++ [dispatch n a])).2) := by
  rw [runToolLoop, h]

/-- C7: the chained tool-call loop is bounded: it performs at most `cap`
chained tool calls, and against a model that requests a tool on every
completion it stops after exactly `cap` calls with an `error` event instead
of looping unboundedly. -/
theorem toolLoop_bounded (model : List Str → ModelReply) (dispatch : Str → Str → Str)
    (cap : Nat) (dia : List Str) :
    (runToolLoop model dispatch cap dia).1 ≤ cap
    ∧ ((∀ d, ∃ n a, model d = ModelReply.toolCall n a) →
        runToolLoop model dispatch cap dia = (cap, TurnOutcome.errorEvent)) := by
  induction cap generalizing dia with
  | zero =>
    refine ⟨?_, ?_⟩
    · cases h : model dia with
      | plain t => simp [runToolLoop_plain model dispatch 0 dia t h]
      | toolCall n a => simp [runToolLoop_tool_zero model dispatch dia n a h]
    · intro hall
      obtain ⟨n, a, hm⟩ := hall dia
      simp [runToolLoop_tool_zero model dispatch dia n a hm]
  | succ c ih =>
    refine ⟨?_, ?_⟩
    · cases h : model dia with
      | plain t => simp [runToolLoop_plain model dispatch (c + 1) dia t h]
      | toolCall n a =>
        have hb := (ih (dia ++ [dispatch n a])).1
        rw [runToolLoop_tool_succ model dispatch c dia n a h]
        exact Nat.succ_le_succ hb
    · intro hall
      obtain ⟨n, a, hm⟩ := hall dia
      have h2 := (ih (dia ++ [dispatch n a])).2 hall
      rw [runToolLoop_tool_succ model dispatch c dia n a hm, h2]

/-- A mock model that requests a tool on every completion. -/
def alwaysTool : List Str → ModelReply := fun _ => ModelReply.toolCall [] []

/-- C7 witness: with cap 3 the always-tool model terminates with an error
event after exactly 3 chained calls. -/
theorem toolLoop_bounded_witness :
    (∀ d, ∃ n a, alwaysTool d = ModelReply.toolCall n a)
    ∧ runToolLoop alwaysTool (fun _ _ => []) 3 [] = (3, TurnOutcome.errorEvent) :=
  ⟨fun _ => ⟨[], [], rfl⟩,
   (toolLoop_bounded alwaysTool (fun _ _ => []) 3 []).2 (fun _ => ⟨[], [], rfl⟩)⟩

/-- C9: a parsed event whose type is none of `token`, `error`, `done`
(e.g. `tool_call`) leaves the whole stream state — accumulated reply text,
streaming reply and message list — unchanged: it is silently dropped. -/
theorem streamConsumer_ignores_unknown (st : MState) (e : SSEData)
    (h1 : e.type_ ≠ tokenT) (h2 : e.type_ ≠ errorT) (h3 : e.type_ ≠ doneT) :
    processEvent st e = st := by
  simp only [processEvent, eq_false h1, eq_false h2, eq_false h3, if_false]

/-- C9 witness: a `tool_call` event is dropped. -/
theorem streamConsumer_ignores_unknown_witness :
    ("tool_call".toList ≠ tokenT ∧ "tool_call".toList ≠ errorT
      ∧ "tool_call".toList ≠ doneT)
    ∧ processEvent (initSt []) ⟨"tool_call".toList, ['x'], []⟩ = initSt [] :=
  ⟨⟨by decide, by decide, by decide⟩,
   streamConsumer_ignores_unknown (initSt []) ⟨"tool_call".toList, ['x'], []⟩
     (by decide) (by decide) (by decide)⟩

/-- One navigation step keeps the task index in `[0, max 0 (len - 1)]`
(stated with the zero case split off so that `omega` can finish). -/
theorem applyNav_bounds (len : Nat) (idx : Int) (nav : TaskNav)
    (h : 0 ≤ idx ∧ (idx = 0 ∨ idx ≤ (len : Int) - 1)) :
    0 ≤ applyNav len idx nav
    ∧ (applyNav len idx nav = 0 ∨ applyNav len idx nav ≤ (len : Int) - 1) := by
  cases nav <;> simp only [applyNav, goNextTask, goPrevTask] <;> split <;> omega

/-- Any click sequence starting in bounds stays in bounds. -/
theorem foldl_nav_bounds (len : Nat) (navs : List TaskNav) :
    ∀ idx : Int, 0 ≤ idx ∧ (idx = 0 ∨ idx ≤ (len : Int) - 1) →
      0 ≤ navs.foldl (applyNav len) idx
      ∧ (navs.foldl (applyNav len) idx = 0 ∨ navs.foldl (applyNav len) idx ≤ (len : Int) - 1) := by
  induction navs with
  | nil => intro idx h; simpa using h
  | cons nav navs ih =>
    intro idx h
    simpa using ih (applyNav len idx nav) (applyNav_bounds len idx nav h)

/-- C10: starting from index 0, any sequence of `goNextTask`/`goPrevTask`
clicks keeps `0 ≤ currentTaskIndex ≤ max 0 (orderedTasks.length - 1)`;
`goPrevTask` at 0 and `goNextTask` at the last task are no-ops; and when the
task list is non-empty the current-task lookup stays in range. -/
theorem taskIndex_bounds (len : Nat) (navs : List TaskNav) :
    (0 ≤ runNav len navs ∧ runNav len navs ≤ max 0 ((len : Int) - 1))
    ∧ goPrevTask 0 = 0
    ∧ goNextTask len ((len : Int) - 1) = (len : Int) - 1
    ∧ (∀ tasks : List UITask, tasks.length = len → 0 < len →
        (currentTask tasks (runNav len navs)).isSome = true) := by
  have hb := foldl_nav_bounds len navs 0 ⟨le_refl 0, Or.inl rfl⟩
  have hb' : 0 ≤ runNav len navs
      ∧ (runNav len navs = 0 ∨ runNav len navs ≤ (len : Int) - 1) := hb
  refine ⟨⟨hb'.1, ?_⟩, ?_, ?_, ?_⟩
  · rcases hb'.2 with h | h
    · rw [h]
      exact le_max_left 0 _
    · exact le_max_of_le_right h
  · rfl
  · simp [goNextTask]
  · intro tasks hlen hpos
    have h1 : 0 ≤ runNav len navs := hb'.1
    have h2 : (runNav len navs).toNat < tasks.length := by
      rcases hb'.2 with h | h <;> omega
    simp [currentTask, h1, h2]

/-- C10 witness: two tasks, clicking next, next, prev. -/
theorem taskIndex_bounds_witness :
    (0 ≤ runNav 2 [TaskNav.next, TaskNav.next, TaskNav.prev]
      ∧ runNav 2 [TaskNav.next, TaskNav.next, TaskNav.prev] ≤ max 0 ((2 : Int) - 1))
    ∧ ([⟨['a'], ['t'], ['a'], none⟩, ⟨['b'], ['t'], ['b'], none⟩] : List UITask).length = 2
    ∧ 0 < 2
    ∧ (currentTask [⟨['a'], ['t'], ['a'], none⟩, ⟨['b'], ['t'], ['b'], none⟩]
         (runNav 2 [TaskNav.next, TaskNav.next, TaskNav.prev])).isSome = true :=
  ⟨(taskIndex_bounds 2 [TaskNav.next, TaskNav.next, TaskNav.prev]).1,
   rfl, by decide,
   (taskIndex_bounds 2 [TaskNav.next, TaskNav.next, TaskNav.prev]).2.2.2
     [⟨['a'], ['t'], ['a'], none⟩, ⟨['b'], ['t'], ['b'], none⟩] rfl (by decide)⟩

/-- A token event appends its content to the accumulated text and the
streaming reply and touches nothing else. -/
theorem processEvent_token (st : MState) (c : Str) :
    processEvent st (mkToken c) =
      { st with accumulated := st.accumulated ++ c,
                streamingReply := st.streamingReply ++ c } := by
  have h1 : ¬(tokenT = errorT) := by decide
  have h2 : ¬(tokenT = doneT) := by decide
  simp only [processEvent, mkToken, if_pos rfl, eq_false h1, eq_false h2, if_false, if_true]

/-- A done event with non-empty content overwrites the accumulated text and
the streaming reply. -/
theorem processEvent_done_ne (st : MState) (c : Str) (h : c ≠ []) :
    processEvent st (mkDone c) = { st with accumulated := c, streamingReply := c } := by
  have h1 : ¬(doneT = tokenT) := by decide
  have h2 : ¬(doneT = errorT) := by decide
  simp only [processEvent, mkDone, eq_false h1, eq_false h2, if_false, if_pos rfl, if_pos h, if_true]

/-- A done event with empty (falsy) content changes nothing. -/
theorem processEvent_done_nil (st : MState) :
    processEvent st (mkDone []) = st := by
  have h1 : ¬(doneT = tokenT) := by decide
  have h2 : ¬(doneT = errorT) := by decide
  have h3 : ¬(([] : Str) ≠ []) := by decide
  simp only [processEvent, mkDone, eq_false h1, eq_false h2, if_false, if_pos rfl,
    eq_false h3, if_true]

/-- A run of token events accumulates their concatenation. -/
theorem runEvents_tokens (st : MState) (toks : List Str) :
    runEvents st (toks.map mkToken) =
      { st with accumulated := st.accumulated ++ toks.flatten,
                streamingReply := st.streamingReply ++ toks.flatten } := by
  induction toks generalizing st with
  | nil => simp [runEvents]
  | cons t toks ih =>
    simp only [List.map_cons, runEvents, List.foldl_cons, processEvent_token]
    have := ih (processEvent st (mkToken t))
    simp only [runEvents] at this
    rw [processEvent_token] at this
    simp only [this, List.flatten_cons, List.append_assoc]

/-- C3 (amended): for a completed stream of token events followed by a `done`
event with non-empty content `d`, the model message persisted to the dialogue
is exactly `d` — the done content supersedes the concatenation of the
incremental tokens. -/
theorem streamModel_done_persisted (initMsgs : List Message) (toks : List Str)
    (d : Str) (hd : d ≠ []) :
    (streamTurnEvents initMsgs (toks.map mkToken ++ [mkDone d]) none).messages
      = initMsgs ++ [⟨Sender.model, d, none⟩]
    ∧ (streamTurnEvents initMsgs (toks.map mkToken ++ [mkDone d]) none).streamingReply
      = [] := by
  have hrun : runEvents (initSt initMsgs) (toks.map mkToken ++ [mkDone d])
      = { accumulated := d, streamingReply := d, messages := initMsgs, streaming := true } := by
    rw [runEvents, List.foldl_append]
    rw [show List.foldl processEvent (initSt initMsgs) (toks.map mkToken)
          = runEvents (initSt initMsgs) (toks.map mkToken) from rfl]
    rw [runEvents_tokens]
    simp [initSt, processEvent_done_ne _ _ hd]
  unfold streamTurnEvents
  rw [hrun]
  simp [finalizeStream, pushMessage, hd]

/-- C3 counterexample: the claim "the persisted model message equals the done
content" fails when the done event carries empty content: after tokens `ab`
and `done` with content `""`, the code persists `ab` (the token
concatenation), which differs from the done content `""`. -/
theorem streamModel_done_empty_counterexample :
    (streamTurnEvents [] [mkToken ['a', 'b'], mkDone []] none).messages
      = [⟨Sender.model, ['a', 'b'], none⟩]
    ∧ ['a', 'b'] ≠ ([] : Str) := by
  constructor
  · rfl
  · decide

/-- C4: when the stream read fails after some token events, exactly one
system error message is surfaced, and the partial text accumulated from the
already-emitted tokens is still retained in the dialogue (as a model
message when it is non-empty) — nothing is retracted. -/
theorem streamFailure_retains_tokens (initMsgs : List Message) (toks : List Str)
    (errMsg : Str) :
    (streamTurnEvents initMsgs (toks.map mkToken) (some errMsg)).messages
      = initMsgs ++ [streamFailMsg errMsg]
        ++ (if toks.flatten ≠ [] then [⟨Sender.model, toks.flatten, none⟩] else []) := by
  unfold streamTurnEvents
  rw [runEvents_tokens]
  by_cases hf : toks.flatten = [] <;>
    simp [finalizeStream, pushMessage, hf, initSt]

/-- C3 witness: tokens `a`, `b` then `done` with content `d`. -/
theorem streamModel_done_persisted_witness :
    (['d'] ≠ ([] : Str))
    ∧ (streamTurnEvents [] ([['a'], ['b']].map mkToken ++ [mkDone ['d']]) none).messages
        = [] ++ [⟨Sender.model, ['d'], none⟩]
    ∧ (streamTurnEvents [] ([['a'], ['b']].map mkToken ++ [mkDone ['d']]) none).streamingReply
        = [] :=
  ⟨by decide,
   (streamModel_done_persisted [] [['a'], ['b']] ['d'] (by decide)).1,
   (streamModel_done_persisted [] [['a'], ['b']] ['d'] (by decide)).2⟩

/-- `split2NL` never returns the empty list of segments. -/
theorem split2NL_ne_nil (s : Str) : split2NL s ≠ [] := by
  induction s using split2NL.induct with
  | case1 rest ih => rw [split2NL.eq_1]; simp
  | case2 c rest hne s ss hr ih => rw [split2NL.eq_2 c rest hne, hr]; simp
  | case3 c rest hne hr ih => exact absurd hr ih
  | case4 => rw [split2NL.eq_3]; simp

/-- A single-segment split result is the input itself. -/
theorem split2NL_single : ∀ x y : Str, split2NL x = [y] → y = x := by
  intro x
  induction x using split2NL.induct with
  | case1 rest ih =>
    intro y hy
    rw [split2NL.eq_1] at hy
    simp at hy
    exact absurd hy.2 (split2NL_ne_nil rest)
  | case2 c rest hne s ss hr ih =>
    intro y hy
    rw [split2NL.eq_2 c rest hne, hr] at hy
    simp at hy
    obtain ⟨hy1, hy2⟩ := hy
    subst hy2
    have hs : s = rest := ih s hr
    rw [← hy1, hs]
  | case3 c rest hne hr ih => exact absurd hr (split2NL_ne_nil rest)
  | case4 =>
    intro y hy
    rw [split2NL.eq_3] at hy
    injection hy with h1 h2
    exact h1.symm
  
/-- The head of `getLastD` is irrelevant on a longer list. -/
theorem getLastD_cons_ne_nil (a : Char) (l : List Char) (hl : l ≠ []) (d : Char) :
    (a :: l).getLastD d = l.getLastD d := by
  cases l with
  | nil => exact absurd rfl hl
  | cons b t => rw [List.getLastD_cons, List.getLastD_cons, List.getLastD_cons]

/-- Appending one character that does not complete a blank-line delimiter to a
delimiter-free buffer keeps it delimiter-free. -/
theorem split2NL_append_no (c : Char) : ∀ b : Str, split2NL b = [b] →
    ¬(c = '\n' ∧ b.getLastD ' ' = '\n') → split2NL (b ++ [c]) = [b ++ [c]] := by
  intro b
  induction b using split2NL.induct with
  | case1 rest ih =>
    intro hb _
    rw [split2NL.eq_1] at hb
    simp at hb
  | case2 c0 rest hne s ss hr ih =>
    intro hb h
    rw [split2NL.eq_2 c0 rest hne, hr] at hb
    simp at hb
    obtain ⟨hs, hss⟩ := hb
    subst hss
    have hsr : s = rest := split2NL_single rest s hr
    subst hsr
    rw [List.cons_append]
    have hne2 : ∀ r1 : List Char, c0 = '\n' → s ++ [c] = '\n' :: r1 → False := by
      intro r1 hc0 hr1
      cases s with
      | nil =>
        simp at hr1
        refine h ⟨hr1.1, ?_⟩
        rw [List.getLastD_cons]
        exact hc0
      | cons r0 rest2 =>
        simp at hr1
        exact hne rest2 hc0 (by rw [hr1.1])
    rw [split2NL.eq_2 _ _ hne2]
    have harg : ¬(c = '\n' ∧ s.getLastD ' ' = '\n') := by
      intro hcon
      cases hs2 : s with
      | nil =>
        rw [hs2] at hcon
        exact absurd hcon.2 (by decide)
      | cons r0 rest2 =>
        refine h ⟨hcon.1, ?_⟩
        rw [getLastD_cons_ne_nil c0 s (by rw [hs2]; simp)]
        exact hcon.2
    rw [ih hr harg]
  | case3 c0 rest hne hr ih => exact absurd hr (split2NL_ne_nil rest)
  | case4 =>
    intro _ _
    rw [List.nil_append]
    rw [split2NL.eq_2 c [] (by intro r1 _ habs; simp at habs), split2NL.eq_3]

/-- Appending a newline to a delimiter-free buffer already ending in a
newline completes a delimiter: the buffer minus its final newline becomes a
finished segment and splitting continues in the remainder. -/
theorem split2NL_append_emit : ∀ b : Str, split2NL b = [b] →
    b.getLastD ' ' = '\n' → ∀ t : Str,
    split2NL (b ++ '\n' :: t) = b.dropLast :: split2NL t := by
  intro b
  induction b using split2NL.induct with
  | case1 rest ih =>
    intro hb _
    rw [split2NL.eq_1] at hb
    simp at hb
  | case2 c0 rest hne s ss hr ih =>
    intro hb hbe t
    rw [split2NL.eq_2 c0 rest hne, hr] at hb
    simp at hb
    obtain ⟨hs, hss⟩ := hb
    subst hss
    have hsr : s = rest := split2NL_single rest s hr
    subst hsr
    cases hs2 : s with
    | nil =>
      subst hs2
      rw [List.getLastD_cons] at hbe
      have hc0 : c0 = '\n' := hbe
      subst hc0
      simp only [List.cons_append, List.nil_append]
      rw [split2NL.eq_1]
      simp
    | cons r0 rest2 =>
      subst hs2
      rw [List.cons_append]
      have hne2 : ∀ r1 : List Char, c0 = '\n' → (r0 :: rest2) ++ '\n' :: t = '\n' :: r1 → False := by
        intro r1 hc0 hr1
        simp at hr1
        exact hne rest2 hc0 (by rw [hr1.1])
      rw [split2NL.eq_2 _ _ hne2]
      have hbe2 : (r0 :: rest2).getLastD ' ' = '\n' := by
        rw [getLastD_cons_ne_nil c0 (r0 :: rest2) (by simp)] at hbe
        exact hbe
      rw [ih hr hbe2 t]
      rfl
  | case3 c0 rest hne hr ih => exact absurd hr (split2NL_ne_nil rest)
  | case4 =>
    intro hb hbe
    exact absurd hbe (by decide)

/-- Single-character view of the reassembly loop: a newline arriving when the
buffer already ends in a newline completes a blank-line delimiter and the
buffered frame is processed; any other character is appended to the buffer. -/
def charStep (parse : Str → SSEData) (s : MState × Str) (c : Char) : MState × Str :=
  if c = '\n' ∧ s.2.getLastD ' ' = '\n' then (processPart parse s.1 s.2.dropLast, [])
  else (s.1, s.2 ++ [c])

/-- Processing one chunk through the buffered split equals feeding its
characters one by one, provided the buffer holds no complete delimiter. -/
theorem stepChunk_eq_charFold (parse : Str → SSEData) :
    ∀ (chunk : Str) (st : MState) (buf : Str), split2NL buf = [buf] →
      stepChunk parse (st, buf) chunk = chunk.foldl (charStep parse) (st, buf) := by
  intro chunk
  induction chunk with
  | nil =>
    intro st buf hb
    simp [stepChunk, hb]
  | cons c chunk ih =>
    intro st buf hb
    rw [List.foldl_cons]
    by_cases hc : c = '\n' ∧ buf.getLastD ' ' = '\n'
    · have hcs : charStep parse (st, buf) c = (processPart parse st buf.dropLast, []) := by
        unfold charStep
        rw [if_pos hc]
      rw [hcs, ← ih (processPart parse st buf.dropLast) [] (by rw [split2NL.eq_3])]
      obtain ⟨hc1, hc2⟩ := hc
      subst hc1
      have hsplit := split2NL_append_emit buf hb hc2 chunk
      obtain ⟨y, ys, hy⟩ : ∃ y ys, split2NL chunk = y :: ys := by
        cases hch : split2NL chunk with
        | nil => exact absurd hch (split2NL_ne_nil chunk)
        | cons y ys => exact ⟨y, ys, rfl⟩
      simp only [stepChunk, List.nil_append]
      rw [hsplit, hy]
      simp [List.getLastD_cons]
    · have hcs : charStep parse (st, buf) c = (st, buf ++ [c]) := by
        unfold charStep
        rw [if_neg hc]
      rw [hcs, ← ih st (buf ++ [c]) (split2NL_append_no c buf hb hc)]
      simp only [stepChunk]
      rw [List.append_cons]

/-- The trailing segment kept as the new buffer never contains a complete
delimiter. -/
theorem split2NL_getLastD_free (s : Str) :
    split2NL ((split2NL s).getLastD []) = [(split2NL s).getLastD []] := by
  induction s using split2NL.induct with
  | case1 rest ih =>
    obtain ⟨y, ys, hy⟩ : ∃ y ys, split2NL rest = y :: ys := by
      cases hch : split2NL rest with
      | nil => exact absurd hch (split2NL_ne_nil rest)
      | cons y ys => exact ⟨y, ys, rfl⟩
    rw [split2NL.eq_1, hy, List.getLastD_cons]
    rw [hy] at ih
    exact ih
  | case2 c0 rest hne s ss hr ih =>
    rw [split2NL.eq_2 c0 rest hne, hr]
    cases hss2 : ss with
    | nil =>
      subst hss2
      have hsr : s = rest := split2NL_single rest s hr
      subst hsr
      rw [List.getLastD_cons, List.getLastD_nil]
      rw [split2NL.eq_2 c0 s hne, hr]
    | cons t ts =>
      subst hss2
      rw [hr] at ih
      rw [List.getLastD_cons, List.getLastD_cons]
      rw [List.getLastD_cons, List.getLastD_cons] at ih
      exact ih
  | case3 c0 rest hne hr ih => exact absurd hr (split2NL_ne_nil rest)
  | case4 => exact split2NL.eq_3

/-- The whole read loop equals feeding the concatenation of all chunks one
character at a time: the splitting state machine cannot see chunk
boundaries. -/
theorem runChunks_eq_charFold (parse : Str → SSEData) (st : MState) (chunks : List Str) :
    runChunks parse st chunks = (chunks.flatten).foldl (charStep parse) (st, []) := by
  suffices h : ∀ (cs : List Str) (p : MState × Str), split2NL p.2 = [p.2] →
      cs.foldl (stepChunk parse) p = (cs.flatten).foldl (charStep parse) p by
    exact h chunks (st, []) (by rw [split2NL.eq_3])
  intro cs
  induction cs with
  | nil =>
    intro p hp
    simp
  | cons ch cs ih =>
    intro p hp
    obtain ⟨st0, buf0⟩ := p
    rw [List.foldl_cons, List.flatten_cons, List.foldl_append]
    rw [← stepChunk_eq_charFold parse ch st0 buf0 hp]
    have hinv : split2NL (stepChunk parse (st0, buf0) ch).2
        = [(stepChunk parse (st0, buf0) ch).2] := by
      have : (stepChunk parse (st0, buf0) ch).2
          = (split2NL (buf0 ++ ch)).getLastD [] := rfl
      rw [this]
      exact split2NL_getLastD_free (buf0 ++ ch)
    exact ih (stepChunk parse (st0, buf0) ch) hinv

/-- Feeding one well-formed frame followed by its blank-line delimiter to the
character machine processes exactly that frame and empties the buffer. -/
theorem charFold_frame (parse : Str → SSEData) (st : MState) (f : Str)
    (hf : split2NL f = [f]) (hfe : f.getLastD ' ' ≠ '\n') :
    (f ++ ['\n', '\n']).foldl (charStep parse) (st, []) = (processPart parse st f, []) := by
  have h1 : f.foldl (charStep parse) (st, []) = (st, f) := by
    rw [← stepChunk_eq_charFold parse f st [] (by rw [split2NL.eq_3])]
    simp [stepChunk, hf]
  have s1 : charStep parse (st, f) '\n' = (st, f ++ ['\n']) := by
    unfold charStep
    rw [if_neg]
    intro hcon
    exact hfe hcon.2
  have s2 : charStep parse (st, f ++ ['\n']) '\n' = (processPart parse st f, []) := by
    unfold charStep
    rw [if_pos ⟨rfl, by rw [List.getLastD_concat]⟩]
    rw [List.dropLast_concat]
  rw [List.foldl_append, h1]
  rw [show (['\n', '\n'] : Str).foldl (charStep parse) (st, f)
      = charStep parse (charStep parse (st, f) '\n') '\n' from rfl]
  rw [s1, s2]

/-- Feeding a sequence of well-formed delimited frames to the character
machine processes exactly those frames in order. -/
theorem charFold_frames (parse : Str → SSEData) :
    ∀ (frames : List Str) (st : MState),
      (∀ f ∈ frames, split2NL f = [f] ∧ f.getLastD ' ' ≠ '\n') →
      ((frames.map (fun f => f ++ ['\n', '\n'])).flatten).foldl (charStep parse) (st, [])
        = (frames.foldl (processPart parse) st, []) := by
  intro frames
  induction frames with
  | nil =>
    intro st _
    simp
  | cons f frames ih =>
    intro st hall
    rw [List.map_cons, List.flatten_cons, List.foldl_append, List.foldl_cons]
    rw [charFold_frame parse st f (hall f (List.mem_cons_self f frames)).1
      (hall f (List.mem_cons_self f frames)).2]
    exact ih (processPart parse st f) (fun g hg => hall g (List.mem_cons_of_mem f hg))

/-- C2: over any chunking of a well-formed server-sent event stream — frames
separated by blank-line delimiters, each frame free of internal delimiters
and not ending in a bare newline — the `streamModel` read loop reassembles
and processes exactly the frames of the concatenated stream, one
`processPart` per frame, independently of where the chunk boundaries fall
(the result depends only on `frames`, not on `cs`); frames not starting with
`data:` leave the state untouched. -/
theorem streamModel_reassembly (parse : Str → SSEData) (st : MState)
    (frames : List Str) (cs : List Str)
    (hwf : cs.flatten = (frames.map (fun f => f ++ ['\n', '\n'])).flatten)
    (hfr : ∀ f ∈ frames, split2NL f = [f] ∧ f.getLastD ' ' ≠ '\n') :
    runChunks parse st cs = (frames.foldl (processPart parse) st, [])
    ∧ (∀ st' g, ("data:".toList).isPrefixOf (trimStr g) = false →
        processPart parse st' g = st') := by
  constructor
  · rw [runChunks_eq_charFold, hwf]
    exact charFold_frames parse frames st hfr
  · intro st' g hg
    unfold processPart
    rw [if_neg (by rw [hg]; exact Bool.false_ne_true)]

/-- A concrete stand-in for `JSON.parse` used by the C2 witness. -/
def sampleParse : Str → SSEData := fun _ => mkToken ['x']

/-- The frames of the C2 witness stream. -/
def witnessFrames : List Str := ["data: a".toList, "ping".toList]

/-- A chunking of the witness stream with boundaries inside a frame and
between the two newlines of a delimiter. -/
def witnessChunks : List Str := ["dat".toList, "a: a\n".toList, "\nping\n\n".toList]

/-- C2 witness: an awkward chunking of a two-frame stream. -/
theorem streamModel_reassembly_witness :
    (witnessChunks.flatten = (witnessFrames.map (fun f => f ++ ['\n', '\n'])).flatten
      ∧ ∀ f ∈ witnessFrames, split2NL f = [f] ∧ f.getLastD ' ' ≠ '\n')
    ∧ runChunks sampleParse (initSt []) witnessChunks
        = (witnessFrames.foldl (processPart sampleParse) (initSt []), []) :=
  ⟨⟨by decide, by decide⟩,
   (streamModel_reassembly sampleParse (initSt []) witnessFrames witnessChunks
      (by decide) (by decide)).1⟩

/-- `dotTF` as a `Finset` sum over any token universe containing the first
operand's tokens. -/
theorem dotTF_eq_sum (d1 d2 : List Str) (U : Finset Str) (hU : d1.toFinset ⊆ U) :
    dotTF d1 d2 = ∑ t ∈ U, d1.count t * d2.count t := by
  unfold dotTF
  rw [← List.sum_toFinset _ (List.nodup_dedup d1)]
  rw [show d1.dedup.toFinset = d1.toFinset from List.toFinset.ext (fun x => List.mem_dedup)]
  exact Finset.sum_subset hU (fun t _ ht => by
    rw [List.count_eq_zero.mpr (fun hmem => ht (List.mem_toFinset.mpr hmem)), Nat.zero_mul])

/-- Cauchy-Schwarz for token-frequency vectors. -/
theorem dotTF_sq_le (qt dt : List Str) :
    dotTF qt dt ^ 2 ≤ normSqTF qt * normSqTF dt := by
  set U := qt.toFinset ∪ dt.toFinset with hUdef
  have h1 : dotTF qt dt = ∑ t ∈ U, qt.count t * dt.count t :=
    dotTF_eq_sum qt dt U (Finset.subset_union_left)
  have h2 : normSqTF qt = ∑ t ∈ U, qt.count t ^ 2 := by
    unfold normSqTF
    rw [dotTF_eq_sum qt qt U (Finset.subset_union_left)]
    exact Finset.sum_congr rfl (fun t _ => by rw [pow_two])
  have h3 : normSqTF dt = ∑ t ∈ U, dt.count t ^ 2 := by
    unfold normSqTF
    rw [dotTF_eq_sum dt dt U (Finset.subset_union_right)]
    exact Finset.sum_congr rfl (fun t _ => by rw [pow_two])
  rw [h1, h2, h3]
  exact Finset.sum_mul_sq_le_sq_mul_sq U (fun t => qt.count t) (fun t => dt.count t)

/-- Squared cosine similarity is at most 1. -/
theorem simSq_le_one (q d : Str) : simSq q d ≤ 1 := by
  unfold simSq
  split
  · norm_num
  · rename_i h
    push_neg at h
    obtain ⟨h1, h2⟩ := h
    rw [div_le_one (by positivity)]
    have := dotTF_sq_le (tokenize q) (tokenize d)
    calc ((dotTF (tokenize q) (tokenize d) : ℚ)) ^ 2
        = ((dotTF (tokenize q) (tokenize d) ^ 2 : ℕ) : ℚ) := by push_cast; ring
      _ ≤ ((normSqTF (tokenize q) * normSqTF (tokenize d) : ℕ) : ℚ) := by
          exact_mod_cast this
      _ = (normSqTF (tokenize q) : ℚ) * (normSqTF (tokenize d) : ℚ) := by push_cast; ring

/-- A non-empty token list has a positive squared norm. -/
theorem normSqTF_pos (qt : List Str) (h : qt ≠ []) : normSqTF qt ≠ 0 := by
  obtain ⟨t, rest, rfl⟩ : ∃ t rest, qt = t :: rest := by
    cases qt with
    | nil => exact absurd rfl h
    | cons t rest => exact ⟨t, rest, rfl⟩
  unfold normSqTF dotTF
  intro hzero
  have hmem : (t :: rest).count t * (t :: rest).count t ∈
      ((t :: rest).dedup.map (fun u => (t :: rest).count u * (t :: rest).count u)) :=
    List.mem_map_of_mem _ (List.mem_dedup.mpr (List.mem_cons_self t rest))
  have hle := List.single_le_sum (l := ((t :: rest).dedup.map
      (fun u => (t :: rest).count u * (t :: rest).count u))) (fun x _ => Nat.zero_le x) _ hmem
  rw [hzero] at hle
  have hpos : 0 < (t :: rest).count t := List.count_pos_iff.mpr (List.mem_cons_self t rest)
  have hz : (t :: rest).count t * (t :: rest).count t = 0 := Nat.le_zero.mp hle
  rcases Nat.mul_eq_zero.mp hz with h0 | h0 <;> omega

/-- A document with the same token list as the query has squared cosine
similarity exactly 1. -/
theorem simSq_self (q d : Str) (hqd : tokenize d = tokenize q) (hq : tokenize q ≠ []) :
    simSq q d = 1 := by
  unfold simSq
  rw [hqd]
  have hn := normSqTF_pos (tokenize q) hq
  rw [if_neg (by push_neg; exact ⟨hn, hn⟩)]
  have : dotTF (tokenize q) (tokenize q) = normSqTF (tokenize q) := rfl
  rw [this]
  rw [div_eq_one_iff_eq (by positivity)]
  ring

/-- C8 (amended): the Retrieval Index returns an empty result on an empty
corpus (never an error); results are ordered by descending (squared) cosine
similarity with ties broken by insertion order; and a corpus document with
the query's exact token list has similarity 1.0, with the first-ranked
result also having similarity 1.0 — though an earlier-inserted document with
a collinear frequency vector may occupy the first rank itself. -/
theorem ragSearch_spec (corpus : List Str) (q : Str) (k : Nat) :
    ragSearch [] q k = []
    ∧ List.Sorted rankLE (ragSearch corpus q k)
    ∧ (∀ i : Nat, i < corpus.length →
        tokenize (corpus.getD i []) = tokenize q → tokenize q ≠ [] → 1 ≤ k →
        simSq q (corpus.getD i []) = 1
        ∧ ((ragSearch corpus q k).headD (0, 0)).2 = 1) := by
  refine ⟨by simp [ragSearch], ?_, ?_⟩
  · unfold ragSearch
    exact List.Pairwise.sublist (List.take_sublist _ _)
      (List.sorted_insertionSort rankLE _)
  · intro i hi hqd hq hk
    have hsim : simSq q (corpus.getD i []) = 1 := simSq_self q _ hqd hq
    refine ⟨hsim, ?_⟩
    have hil : i < corpus.enum.length := by simpa [List.enum_length] using hi
    have hgetD : corpus.getD i [] = corpus[i] := List.getD_eq_getElem corpus [] hi
    have hmem0 : ((i, corpus[i]) : Nat × Str) ∈ corpus.enum := by
      have h1 : corpus.enum[i] = (i, corpus[i]) := List.getElem_enum corpus i hil
      rw [← h1]
      exact List.getElem_mem hil
    have hmem : ((i, (1 : ℚ)) : Nat × ℚ) ∈
        (corpus.enum.map (fun p => (p.1, simSq q p.2))) := by
      have h2 := List.mem_map_of_mem (fun p => (p.1, simSq q p.2)) hmem0
      rw [hgetD] at hsim
      simpa [hsim] using h2
    have hmemf : ((i, (1 : ℚ)) : Nat × ℚ) ∈
        (corpus.enum.map (fun p => (p.1, simSq q p.2))).insertionSort rankLE :=
      ((List.perm_insertionSort rankLE _).mem_iff).mpr hmem
    obtain ⟨p, rest, hcons⟩ : ∃ p rest,
        (corpus.enum.map (fun p => (p.1, simSq q p.2))).insertionSort rankLE
          = p :: rest := by
      cases hf : (corpus.enum.map (fun p => (p.1, simSq q p.2))).insertionSort rankLE with
      | nil => rw [hf] at hmemf; cases hmemf
      | cons p rest => exact ⟨p, rest, rfl⟩
    have hsorted := List.sorted_insertionSort rankLE
      (corpus.enum.map (fun p => (p.1, simSq q p.2)))
    have hle1 : rankLE p (i, 1) := by
      rw [hcons] at hmemf
      cases hmemf with
      | head => exact Or.inr ⟨rfl, le_refl _⟩
      | tail _ hmem2 =>
        rw [hcons] at hsorted
        exact List.rel_of_sorted_cons hsorted _ hmem2
    have hple : p.2 ≤ 1 := by
      have hpmem : p ∈ (corpus.enum.map (fun p => (p.1, simSq q p.2))).insertionSort rankLE := by
        rw [hcons]
        exact List.mem_cons_self p rest
      obtain ⟨pr, hpr, hpe⟩ :=
        List.mem_map.mp ((List.perm_insertionSort rankLE _).mem_iff.mp hpmem)
      rw [← hpe]
      exact simSq_le_one q pr.2
    have hp2 : p.2 = 1 := by
      rcases hle1 with h | h
      · exact absurd hple (not_le.mpr h)
      · exact h.1
    unfold ragSearch
    rw [hcons]
    cases k with
    | zero => omega
    | succ k2 => simp [List.take, hp2]

/-- C8 counterexample: with corpus `["a a", "a"]` and query `"a"`, the
document `"a a"` (inserted first, collinear frequency vector) also has
similarity 1 and wins the insertion-order tie-break, so the document
identical to the query (index 1) is not ranked first. -/
theorem ragSearch_tie_counterexample :
    ragSearch ["a a".toList, "a".toList] ("a".toList) 2
      = [(0, (1 : ℚ)), (1, (1 : ℚ))]
    ∧ tokenize (["a a".toList, "a".toList].getD 1 []) = tokenize ("a".toList)
    ∧ tokenize (["a a".toList, "a".toList].getD 0 []) ≠ tokenize ("a".toList) := by
  refine ⟨?_, by decide, by decide⟩
  have hs1 : simSq ("a".toList) ("a a".toList) = 1 := by
    unfold simSq
    rw [if_neg (by decide)]
    rw [show dotTF (tokenize ("a".toList)) (tokenize ("a a".toList)) = 2 from by decide,
        show normSqTF (tokenize ("a".toList)) = 1 from by decide,
        show normSqTF (tokenize ("a a".toList)) = 4 from by decide]
    norm_num
  have hs2 : simSq ("a".toList) ("a".toList) = 1 := by
    unfold simSq
    rw [if_neg (by decide)]
    rw [show dotTF (tokenize ("a".toList)) (tokenize ("a".toList)) = 1 from by decide,
        show normSqTF (tokenize ("a".toList)) = 1 from by decide]
    norm_num
  have hmap : (["a a".toList, "a".toList].enum).map
      (fun p => (p.1, simSq ("a".toList) p.2)) = [(0, (1 : ℚ)), (1, 1)] := by
    rw [show (["a a".toList, "a".toList].enum)
        = [(0, "a a".toList), (1, "a".toList)] from by decide]
    simp only [List.map_cons, List.map_nil]
    rw [hs1, hs2]
  have hsort : List.insertionSort rankLE [((0 : Nat), (1 : ℚ)), (1, 1)]
      = [(0, 1), (1, 1)] := by
    norm_num [List.insertionSort, List.orderedInsert, rankLE]
  unfold ragSearch
  rw [hmap, hsort]
  rfl

/-- C8 witness: a one-document corpus identical to the query. -/
theorem ragSearch_spec_witness :
    ((0 : Nat) < 1
      ∧ tokenize (["a".toList].getD 0 []) = tokenize ("a".toList)
      ∧ tokenize ("a".toList) ≠ []
      ∧ 1 ≤ 1)
    ∧ ragSearch [] ("a".toList) 1 = []
    ∧ List.Sorted rankLE (ragSearch ["a".toList] ("a".toList) 1)
    ∧ simSq ("a".toList) (["a".toList].getD 0 []) = 1
    ∧ ((ragSearch ["a".toList] ("a".toList) 1).headD (0, 0)).2 = 1 :=
  ⟨⟨by decide, by decide, by decide, by decide⟩,
   (ragSearch_spec ["a".toList] ("a".toList) 1).1,
   (ragSearch_spec ["a".toList] ("a".toList) 1).2.1,
   ((ragSearch_spec ["a".toList] ("a".toList) 1).2.2 0 (by decide) (by decide)
      (by decide) (by decide)).1,
   ((ragSearch_spec ["a".toList] ("a".toList) 1).2.2 0 (by decide) (by decide)
      (by decide) (by decide)).2⟩
